import Mathlib

/-!
Verification of the student-record file store (`student_manager.py`).

Shallow embedding of the record store and derived-view logic of
`student_manager.py`:

* strings are modelled as `List Char`; `str.strip()` is `trim`,
  `str.lower()` is `toLowerChars`, `str.split(",")` is `splitOnComma`,
  Python's `in` substring test is `<:+:` on char lists;
* `int(...)` parsing is `parseInt` (optional sign followed by decimal
  digits, after stripping); `str(i)` is `intToChars`;
* a file is `Option (List (List Char))`: `none` for an absent file,
  otherwise the list of its lines (without trailing newlines);
* percentages are exact rationals: the marks are integers, so every
  comparison the program makes on the derived `float` values coincides
  with the comparison of the corresponding rationals.
-/

namespace StudentManager

/-- One student record: `code,name,c1,c2,c3,exam`
(dict built in `read_students_from_file`). -/
structure Student where
  code : List Char
  name : List Char
  c1 : Int
  c2 : Int
  c3 : Int
  exam : Int
deriving DecidableEq

/-- Model of `str.lower()` on a char-list string. -/
def toLowerChars (l : List Char) : List Char := l.map Char.toLower

/-- Left part of `str.strip()`: drop leading whitespace. -/
def trimLeft (l : List Char) : List Char := l.dropWhile Char.isWhitespace

/-- Right part of `str.strip()`: drop trailing whitespace. -/
def trimRight (l : List Char) : List Char :=
  (l.reverse.dropWhile Char.isWhitespace).reverse

/-- Model of `str.strip()`: drop leading and trailing whitespace. -/
def trim (l : List Char) : List Char := trimRight (trimLeft l)

/-- Model of `str.split(",")`: split on every comma; `"".split(",") = [""]`. -/
def splitOnComma : List Char → List (List Char)
  | [] => [[]]
  | c :: cs =>
    match splitOnComma cs with
    | [] => [[]]
    | p :: ps => if c = ',' then [] :: p :: ps else (c :: p) :: ps

/-- Value of a decimal digit string, most significant first. -/
def digitsToNat (l : List Char) : Nat :=
  l.foldl (fun acc c => acc * 10 + (c.toNat - '0'.toNat)) 0

/-- Parse a nonempty all-digit string. -/
def parseNat (l : List Char) : Option Nat :=
  if l ≠ [] ∧ l.all Char.isDigit then some (digitsToNat l) else none

/-- Python `int(...)` on an already stripped string: optional sign then
decimal digits. -/
def parseInt (l : List Char) : Option Int :=
  if l.head? = some '-' then (parseNat l.tail).map (fun n : Nat => -(n : Int))
  else if l.head? = some '+' then (parseNat l.tail).map (fun n : Nat => (n : Int))
  else (parseNat l).map (fun n : Nat => (n : Int))

/-- Character of a decimal digit (`d < 10`). -/
def digitChar (d : Nat) : Char := Char.ofNat (48 + d)

/-- Decimal digits of a natural number, most significant first, with a
fuel bound (structural recursion so that evaluation is definitional). -/
def natToCharsAux : Nat → Nat → List Char
  | 0, _ => []
  | fuel + 1, n =>
    if n < 10 then [digitChar n]
    else natToCharsAux fuel (n / 10) ++ [digitChar (n % 10)]

/-- Decimal digits of a natural number, most significant first
(Python `str` on a non-negative int). -/
def natToChars (n : Nat) : List Char := natToCharsAux (n + 1) n

/-- Python `str` on an int: minus sign for negatives, then digits. -/
def intToChars (i : Int) : List Char :=
  if i < 0 then '-' :: natToChars i.natAbs else natToChars i.toNat

/-- The distinct failure kinds of `read_students_from_file`:
`FileNotFoundError`, `ValueError "File is empty."`,
`ValueError "First line must be the integer number of students."`. -/
inductive LoadError
  | fileNotFound
  | emptyFile
  | malformedHeader
deriving DecidableEq

/-- Parse of one data line (the body of the `for ln in lines[1:]` loop):
blank lines, lines with fewer than 6 comma-separated fields, and lines
whose mark fields do not parse as integers yield `none` (skipped). -/
def parseLine (ln : List Char) : Option Student :=
  if trim ln = [] then none
  else
    match (splitOnComma ln).map trim with
    | code :: name :: m1 :: m2 :: m3 :: m4 :: _ =>
      match parseInt m1, parseInt m2, parseInt m3, parseInt m4 with
      | some c1, some c2, some c3, some exam =>
        some { code := code, name := name, c1 := c1, c2 := c2, c3 := c3, exam := exam }
      | _, _, _, _ => none
    | _ => none

/-- Model of `read_students_from_file(path)`: `none` models an absent file; a
present file is its list of lines. Returns the parsed records and the
declared count from the header line. -/
def read_students_from_file (file : Option (List (List Char))) :
    Except LoadError (List Student × Int) :=
  match file with
  | none => .error .fileNotFound
  | some [] => .error .emptyFile
  | some (first :: rest) =>
    match parseInt (trim first) with
    | none => .error .malformedHeader
    | some declared => .ok (rest.filterMap parseLine, declared)

/-- Serialization of one record, the line written by the save loop. -/
def serializeStudent (s : Student) : List Char :=
  s.code ++ (',' :: (s.name ++ (',' :: (intToChars s.c1 ++ (',' :: (intToChars s.c2
    ++ (',' :: (intToChars s.c3 ++ (',' :: intToChars s.exam)))))))))

/-- Model of `write_students_to_file(path, students)`: the file contents after the
overwrite — count line first, then one line per record in list order. -/
def write_students_to_file (students : List Student) : List (List Char) :=
  natToChars students.length :: students.map serializeStudent

/-- Model of `compute_coursework_total(student)`: sum of the three coursework marks. -/
def compute_coursework_total (s : Student) : Int := s.c1 + s.c2 + s.c3

/-- Model of `compute_overall_percentage(student)`:
`(total_course + exam) / 160.0 * 100.0`, as an exact rational. -/
def compute_overall_percentage (s : Student) : ℚ :=
  ((compute_coursework_total s + s.exam : Int) : ℚ) / 160 * 100

/-- Letter grades returned by `compute_grade`. -/
inductive Grade | A | B | C | D | F
deriving DecidableEq

/-- Model of `compute_grade(percent)`: banded mapping with thresholds 70/60/50/40. -/
def compute_grade (percent : ℚ) : Grade :=
  if percent ≥ 70 then .A
  else if percent ≥ 60 then .B
  else if percent ≥ 50 then .C
  else if percent ≥ 40 then .D
  else .F

/-- The match test of `view_individual_prompt` / `delete_student_prompt` /
`update_student_prompt`: `query in s["code"].lower() or query in s["name"].lower()`,
for an already normalised (stripped, lowercased) query. -/
def matchesQuery (q : List Char) (s : Student) : Bool :=
  decide (q <:+: toLowerChars s.code) || decide (q <:+: toLowerChars s.name)

/-- Model of `matches = [s for s in self.students if query in s["code"].lower() or
query in s["name"].lower()]` after `query = answer.strip().lower()`. -/
def findMatches (students : List Student) (answer : List Char) : List Student :=
  students.filter (matchesQuery (toLowerChars (trim answer)))

/-- Model of `sort_menu`: `sorted(self.students, key=compute_overall_percentage,
reverse=not ascending)`. Python's sort is stable in both directions, so it
is modelled by a stable merge sort under the (reversed, for descending)
key comparison. -/
def sortByPercentage (students : List Student) (ascending : Bool) : List Student :=
  if ascending then
    students.mergeSort (fun a b => compute_overall_percentage a ≤ compute_overall_percentage b)
  else
    students.mergeSort (fun a b => compute_overall_percentage b ≤ compute_overall_percentage a)

/-- Model of `show_highest`: `max(self.students, key=compute_overall_percentage)`.
Python's `max` keeps the first of several maximal elements: it replaces the
running best only on a strictly greater key. -/
def show_highest (students : List Student) : Option Student :=
  match students with
  | [] => none
  | x :: xs =>
    some (xs.foldl
      (fun best s =>
        if compute_overall_percentage best < compute_overall_percentage s then s else best)
      x)

/-- Model of `show_lowest`: `min(self.students, key=compute_overall_percentage)`.
Python's `min` keeps the first of several minimal elements. -/
def show_lowest (students : List Student) : Option Student :=
  match students with
  | [] => none
  | x :: xs =>
    some (xs.foldl
      (fun best s =>
        if compute_overall_percentage s < compute_overall_percentage best then s else best)
      x)

/-- Outcome of `add_student_prompt`. `cancelled` models an empty dialog
answer (the function returns without touching anything),
`invalidMarks` the `int(...)` failure branch, `invalidRange` the range
check, `duplicate` the duplicate-code check; `added` carries the new list
that is then written to the file. -/
inductive AddOutcome
  | cancelled
  | duplicate
  | invalidMarks
  | invalidRange
  | added (students : List Student)
deriving DecidableEq

/-- Model of `add_student_prompt`, given the dialog answers: the code and name
strings and the four mark strings. Mirrors the source order: code prompt,
duplicate check, name prompt, integer parse of the marks, range check,
append, save. -/
def add_student_prompt (students : List Student)
    (codeAnswer nameAnswer m1 m2 m3 m4 : List Char) : AddOutcome :=
  if codeAnswer = [] then .cancelled
  else if students.any (fun s => s.code = trim codeAnswer) then .duplicate
  else if nameAnswer = [] then .cancelled
  else
    match parseInt (trim m1), parseInt (trim m2), parseInt (trim m3), parseInt (trim m4) with
    | some c1, some c2, some c3, some exam =>
      if ¬ (0 ≤ c1 ∧ c1 ≤ 20) ∨ ¬ (0 ≤ c2 ∧ c2 ≤ 20) ∨ ¬ (0 ≤ c3 ∧ c3 ≤ 20)
          ∨ ¬ (0 ≤ exam ∧ exam ≤ 100) then .invalidRange
      else .added (students ++ [⟨trim codeAnswer, trim nameAnswer, c1, c2, c3, exam⟩])
    | _, _, _, _ => .invalidMarks

/-- Outcome of `delete_student_prompt`. `cancelled` covers an empty dialog
answer, a cancelled chooser and a declined confirmation; `notFound` is the
"No matching student found." branch; `deleted` carries the new list that
is then written to the file. In the `notFound` and `cancelled` cases the
source returns before touching `self.students` or the file. -/
inductive DeleteOutcome
  | cancelled
  | notFound
  | deleted (students : List Student)
deriving DecidableEq

/-- Model of `delete_student_prompt`, given the dialog answer and the index `pick`
the user chooses among several matches (the source uses `matches[0]`
directly when there is exactly one match, which is `pick = 0`). The chosen
record's code drives the removal:
`self.students = [s for s in self.students if s["code"] != to_delete["code"]]`. -/
def delete_student_prompt (students : List Student) (answer : List Char)
    (pick : Nat) : DeleteOutcome :=
  if answer = [] then .cancelled
  else
    match findMatches students answer with
    | [] => .notFound
    | m :: ms =>
      if hp : pick < (m :: ms).length then
        .deleted (students.filter
          (fun s => s.code ≠ ((m :: ms).get ⟨pick, hp⟩).code))
      else .cancelled

/-- Outcome of the code-field branch of `update_student_prompt`. -/
inductive UpdateOutcome
  | cancelled
  | duplicate
  | invalidInt
  | invalidRange
  | updated (students : List Student)
deriving DecidableEq

/-- The `"Student Code"` branch of `update_student_prompt`, acting on the
student at index `i`: the duplicate check compares the raw dialog answer
(`any(s["code"] == new_code and s is not student ...)`) while the stored
value is the stripped answer (`student["code"] = new_code.strip()`). -/
def update_student_code (students : List Student) (i : Fin students.length)
    (newCode : List Char) : UpdateOutcome :=
  if newCode = [] then .cancelled
  else if (List.finRange students.length).any
      (fun j => j ≠ i ∧ (students.get j).code = newCode) then .duplicate
  else .updated (students.set i { students.get i with code := trim newCode })

/-- A coursework branch (`"Coursework 1"`/`2`/`3`) of
`update_student_prompt`: integer parse, range check `0 <= val <= 20`,
then in-place mutation of the chosen field. `k` selects the field
(0, 1 or 2). -/
def update_student_coursework (students : List Student) (i : Fin students.length)
    (k : Fin 3) (answer : List Char) : UpdateOutcome :=
  match parseInt (trim answer) with
  | none => .invalidInt
  | some val =>
    if ¬ (0 ≤ val ∧ val ≤ 20) then .invalidRange
    else
      let s := students.get i
      let s' := if k = 0 then { s with c1 := val }
                else if k = 1 then { s with c2 := val }
                else { s with c3 := val }
      .updated (students.set i s')

/-- The `"Exam"` branch of `update_student_prompt`: integer parse, range
check `0 <= val <= 100`, then in-place mutation of the exam field. -/
def update_student_exam (students : List Student) (i : Fin students.length)
    (answer : List Char) : UpdateOutcome :=
  match parseInt (trim answer) with
  | none => .invalidInt
  | some val =>
    if ¬ (0 ≤ val ∧ val ≤ 100) then .invalidRange
    else .updated (students.set i { students.get i with exam := val })

/-! ## Digit and integer-printing lemmas -/

theorem digitChar_toNat {d : Nat} (h : d < 10) : (digitChar d).toNat = 48 + d := by
  interval_cases d <;> decide

theorem digitChar_isDigit {d : Nat} (h : d < 10) : (digitChar d).isDigit = true := by
  interval_cases d <;> decide

theorem isDigit_not_ws {c : Char} (h : c.isDigit = true) : c.isWhitespace = false := by
  by_contra hw
  simp only [Bool.not_eq_false] at hw
  simp only [Char.isWhitespace, Bool.or_eq_true, decide_eq_true_eq] at hw
  rcases hw with ((rfl | rfl) | rfl) | rfl <;> simp [Char.isDigit] at h

theorem isDigit_ne_comma {c : Char} (h : c.isDigit = true) : c ≠ ',' := by
  rintro rfl; simp [Char.isDigit] at h

theorem isDigit_ne_minus {c : Char} (h : c.isDigit = true) : c ≠ '-' := by
  rintro rfl; simp [Char.isDigit] at h

theorem isDigit_ne_plus {c : Char} (h : c.isDigit = true) : c ≠ '+' := by
  rintro rfl; simp [Char.isDigit] at h

theorem natToCharsAux_all_digits :
    ∀ (fuel n : Nat), n < fuel → ∀ c ∈ natToCharsAux fuel n, c.isDigit = true := by
  intro fuel
  induction fuel with
  | zero => intro n h; omega
  | succ fuel ih =>
    intro n h c hc
    rw [natToCharsAux] at hc
    split at hc
    · rcases List.mem_singleton.mp hc with rfl
      exact digitChar_isDigit (by omega)
    · rcases List.mem_append.mp hc with hc | hc
      · exact ih (n / 10) (by omega) c hc
      · rcases List.mem_singleton.mp hc with rfl
        exact digitChar_isDigit (by omega)

theorem natToCharsAux_ne_nil :
    ∀ (fuel n : Nat), n < fuel → natToCharsAux fuel n ≠ [] := by
  intro fuel
  induction fuel with
  | zero => intro n h; omega
  | succ fuel _ =>
    intro n _
    rw [natToCharsAux]
    split
    · simp
    · simp

theorem digitsToNat_append_digit (l : List Char) (c : Char) :
    digitsToNat (l ++ [c]) = digitsToNat l * 10 + (c.toNat - '0'.toNat) := by
  simp [digitsToNat, List.foldl_append]

theorem digitsToNat_natToCharsAux :
    ∀ (fuel n : Nat), n < fuel → digitsToNat (natToCharsAux fuel n) = n := by
  intro fuel
  induction fuel with
  | zero => intro n h; omega
  | succ fuel ih =>
    intro n h
    rw [natToCharsAux]
    split
    · rename_i h10
      simp [digitsToNat, digitChar_toNat h10]
    · rename_i h10
      rw [digitsToNat_append_digit, ih (n / 10) (by omega),
        digitChar_toNat (Nat.mod_lt n (by omega))]
      show n / 10 * 10 + ('0'.toNat + n % 10 - '0'.toNat) = n
      omega

theorem natToChars_all_digits {n : Nat} : ∀ c ∈ natToChars n, c.isDigit = true :=
  natToCharsAux_all_digits (n + 1) n (Nat.lt_succ_self n)

theorem natToChars_ne_nil (n : Nat) : natToChars n ≠ [] :=
  natToCharsAux_ne_nil (n + 1) n (Nat.lt_succ_self n)

theorem digitsToNat_natToChars (n : Nat) : digitsToNat (natToChars n) = n :=
  digitsToNat_natToCharsAux (n + 1) n (Nat.lt_succ_self n)

theorem parseNat_natToChars (n : Nat) : parseNat (natToChars n) = some n := by
  rw [parseNat, if_pos]
  · rw [digitsToNat_natToChars]
  · exact ⟨natToChars_ne_nil n, List.all_eq_true.mpr natToChars_all_digits⟩

theorem natToChars_head_digit {n : Nat} {c : Char} {cs : List Char}
    (h : natToChars n = c :: cs) : c.isDigit = true :=
  natToChars_all_digits c (h ▸ List.mem_cons_self c cs)

theorem parseInt_natToChars (n : Nat) : parseInt (natToChars n) = some (n : Int) := by
  obtain ⟨c, cs, hc⟩ : ∃ c cs, natToChars n = c :: cs := by
    cases h : natToChars n with
    | nil => exact absurd h (natToChars_ne_nil n)
    | cons c cs => exact ⟨c, cs, rfl⟩
  have hd := natToChars_head_digit hc
  rw [parseInt, if_neg, if_neg]
  · rw [parseNat_natToChars]; rfl
  · rw [hc]; simpa using isDigit_ne_plus hd
  · rw [hc]; simpa using isDigit_ne_minus hd

theorem parseInt_neg_digits (l : List Char) :
    parseInt ('-' :: l) = (parseNat l).map (fun n : Nat => -(n : Int)) := by
  simp [parseInt]

theorem parseInt_intToChars (i : Int) : parseInt (intToChars i) = some i := by
  rw [intToChars]
  split
  · rename_i hneg
    rw [parseInt_neg_digits, parseNat_natToChars]
    simp only [Option.map_some']
    congr 1
    omega
  · rename_i hpos
    rw [parseInt_natToChars]
    congr 1
    omega

theorem intToChars_all_not_ws (i : Int) : ∀ c ∈ intToChars i, c.isWhitespace = false := by
  rw [intToChars]
  split
  · intro c hc
    rcases List.mem_cons.mp hc with rfl | hc
    · decide
    · exact isDigit_not_ws (natToChars_all_digits c hc)
  · intro c hc
    exact isDigit_not_ws (natToChars_all_digits c hc)

theorem intToChars_no_comma (i : Int) : ',' ∉ intToChars i := by
  intro hc
  have hdm : (',' : Char).isDigit = true ∨ (',' : Char) = '-' := by
    rw [intToChars] at hc
    split at hc
    · rcases List.mem_cons.mp hc with h | h
      · exact Or.inr h
      · exact Or.inl (natToChars_all_digits _ h)
    · exact Or.inl (natToChars_all_digits _ hc)
  rcases hdm with h | h
  · exact absurd h (by decide)
  · exact absurd h (by decide)

/-! ## `trim` lemmas -/

theorem dropWhile_idem (p : α → Bool) (l : List α) :
    (l.dropWhile p).dropWhile p = l.dropWhile p := by
  induction l with
  | nil => rfl
  | cons c cs ih =>
    by_cases h : p c
    · rw [List.dropWhile_cons_of_pos h, ih]
    · rw [List.dropWhile_cons_of_neg h, List.dropWhile_cons_of_neg h]

theorem head_dropWhile_false {p : α → Bool} {l : List α} {c : α} {cs : List α}
    (h : l.dropWhile p = c :: cs) : p c = false := by
  induction l with
  | nil => simp at h
  | cons a as ih =>
    by_cases ha : p a
    · rw [List.dropWhile_cons_of_pos ha] at h
      exact ih h
    · rw [List.dropWhile_cons_of_neg ha] at h
      rcases h with ⟨rfl, rfl⟩
      exact Bool.not_eq_true _ ▸ Bool.of_not_eq_true ha

theorem trim_eq_self_of_no_ws {l : List Char}
    (h : ∀ c ∈ l, c.isWhitespace = false) : trim l = l := by
  have hleft : trimLeft l = l := by
    rw [trimLeft]
    cases l with
    | nil => rfl
    | cons c cs => exact List.dropWhile_cons_of_neg (by simp [h c (List.mem_cons_self c cs)])
  have hrev : ∀ c ∈ l.reverse, c.isWhitespace = false := fun c hc =>
    h c (List.mem_reverse.mp hc)
  rw [trim, hleft, trimRight]
  cases hr : l.reverse with
  | nil => simpa using congrArg List.reverse hr
  | cons c cs =>
    rw [List.dropWhile_cons_of_neg (by simp [hrev c (hr ▸ List.mem_cons_self c cs)]), ← hr,
      List.reverse_reverse]

theorem mem_trimLeft {l : List Char} {c : Char} (h : c ∈ trimLeft l) : c ∈ l :=
  (List.dropWhile_sublist _).mem h

theorem mem_trimRight {l : List Char} {c : Char} (h : c ∈ trimRight l) : c ∈ l := by
  rw [trimRight, List.mem_reverse] at h
  exact List.mem_reverse.mp ((List.dropWhile_sublist _).mem h)

theorem mem_trim {l : List Char} {c : Char} (h : c ∈ trim l) : c ∈ l :=
  mem_trimLeft (mem_trimRight h)

theorem trimLeft_eq_self_of_head {l : List Char}
    (h : ∀ c cs, l = c :: cs → c.isWhitespace = false) : trimLeft l = l := by
  cases l with
  | nil => rfl
  | cons c cs => exact List.dropWhile_cons_of_neg (by simp [h c cs rfl])

theorem trimRight_idem (l : List Char) : trimRight (trimRight l) = trimRight l := by
  rw [trimRight, trimRight, List.reverse_reverse, dropWhile_idem]

theorem trimRight_prefix_self (l : List Char) : trimRight l <+: l := by
  rw [trimRight]
  have hs : l.reverse.dropWhile Char.isWhitespace <:+ l.reverse :=
    List.dropWhile_suffix _
  have := hs.reverse
  rwa [List.reverse_reverse] at this

theorem trim_idem (l : List Char) : trim (trim l) = trim l := by
  have hhead : ∀ c cs, trim l = c :: cs → c.isWhitespace = false := by
    intro c cs h
    rw [trim] at h
    obtain ⟨t, ht⟩ := trimRight_prefix_self (trimLeft l)
    rw [h] at ht
    rw [trimLeft] at ht
    exact head_dropWhile_false ht.symm
  rw [trim, trimLeft_eq_self_of_head hhead, trim, trimRight_idem]

theorem trim_ne_nil_of_mem {l : List Char} {c : Char}
    (hc : c ∈ l) (hw : c.isWhitespace = false) : trim l ≠ [] := by
  have h1 : c ∈ trimLeft l := by
    rcases List.mem_append.mp
        ((List.takeWhile_append_dropWhile Char.isWhitespace l) ▸ hc) with h | h
    · exact absurd (List.mem_takeWhile_imp h) (by simp [hw])
    · exact h
  have h2 : c ∈ trim l := by
    rw [trim, trimRight, List.mem_reverse]
    rcases List.mem_append.mp
        ((List.takeWhile_append_dropWhile Char.isWhitespace
          ((trimLeft l).reverse)) ▸ List.mem_reverse.mpr h1) with h | h
    · exact absurd (List.mem_takeWhile_imp h) (by simp [hw])
    · exact h
  intro hnil
  rw [hnil] at h2
  exact absurd h2 (List.not_mem_nil c)

/-! ## `splitOnComma` lemmas -/

theorem splitOnComma_ne_nil (l : List Char) : splitOnComma l ≠ [] := by
  cases l with
  | nil => simp [splitOnComma]
  | cons c cs =>
    rw [splitOnComma]
    cases h : splitOnComma cs with
    | nil => simp
    | cons p ps =>
      show ¬ (if c = ',' then [] :: p :: ps else (c :: p) :: ps) = []
      split <;> simp

theorem splitOnComma_no_comma : ∀ (l : List Char), ∀ p ∈ splitOnComma l, ',' ∉ p := by
  intro l
  induction l with
  | nil => intro p hp; rw [splitOnComma, List.mem_singleton] at hp; simp [hp]
  | cons c cs ih =>
    intro p hp
    rw [splitOnComma] at hp
    cases h : splitOnComma cs with
    | nil => exact absurd h (splitOnComma_ne_nil cs)
    | cons q qs =>
      rw [h] at hp
      replace hp : p ∈ if c = ',' then [] :: q :: qs else (c :: q) :: qs := hp
      split at hp
      · rename_i hc
        rcases List.mem_cons.mp hp with rfl | hp
        · simp
        · exact ih p (h ▸ hp)
      · rename_i hc
        rcases List.mem_cons.mp hp with rfl | hp
        · intro hmem
          rcases List.mem_cons.mp hmem with heq | hmem
          · exact hc heq.symm
          · exact ih q (h ▸ List.mem_cons_self q qs) hmem
        · exact ih p (h ▸ List.mem_cons.mpr (Or.inr hp))

theorem splitOnComma_of_no_comma {l : List Char} (h : ',' ∉ l) : splitOnComma l = [l] := by
  induction l with
  | nil => rfl
  | cons c cs ih =>
    rw [splitOnComma, ih (fun hc => h (List.mem_cons.mpr (Or.inr hc)))]
    show (if c = ',' then [] :: cs :: [] else (c :: cs) :: []) = [c :: cs]
    rw [if_neg (fun hc : c = ',' => h (List.mem_cons.mpr (Or.inl hc.symm)))]

theorem splitOnComma_append {a : List Char} (rest : List Char) (h : ',' ∉ a) :
    splitOnComma (a ++ ',' :: rest) = a :: splitOnComma rest := by
  induction a with
  | nil =>
    rw [List.nil_append, splitOnComma]
    cases hs : splitOnComma rest with
    | nil => exact absurd hs (splitOnComma_ne_nil rest)
    | cons p ps =>
      show (if (',' : Char) = ',' then [] :: p :: ps else (',' :: p) :: ps) = [] :: p :: ps
      rw [if_pos rfl]
  | cons c cs ih =>
    have hcs : ',' ∉ cs := fun hc => h (List.mem_cons.mpr (Or.inr hc))
    rw [List.cons_append, splitOnComma, ih hcs]
    show (if c = ',' then [] :: cs :: splitOnComma rest else (c :: cs) :: splitOnComma rest)
      = (c :: cs) :: splitOnComma rest
    rw [if_neg (fun hc : c = ',' => h (List.mem_cons.mpr (Or.inl hc.symm)))]

/-! ## Serialize/parse round trip -/

theorem trim_intToChars (i : Int) : trim (intToChars i) = intToChars i :=
  trim_eq_self_of_no_ws (intToChars_all_not_ws i)

/-- Shape of every record produced by `parseLine`: the code and name come
from comma-split, stripped fields, so they are comma-free and unchanged by
a further strip. -/
def StudentWf (s : Student) : Prop :=
  ',' ∉ s.code ∧ ',' ∉ s.name ∧ trim s.code = s.code ∧ trim s.name = s.name

theorem parseLine_wf {ln : List Char} {s : Student}
    (h : parseLine ln = some s) : StudentWf s := by
  rw [parseLine] at h
  split at h
  · exact absurd h (by simp)
  · split at h
    · rename_i code name m1 m2 m3 m4 rest heq
      split at h
      · rename_i c1 c2 c3 exam h1 h2 h3 h4
        have hcode : code ∈ (splitOnComma ln).map trim := by
          rw [heq]; exact List.mem_cons_self _ _
        have hname : name ∈ (splitOnComma ln).map trim := by
          rw [heq]; exact List.mem_cons.mpr (Or.inr (List.mem_cons_self _ _))
        obtain ⟨pc, hpc, hpce⟩ := List.mem_map.mp hcode
        obtain ⟨pn, hpn, hpne⟩ := List.mem_map.mp hname
        obtain rfl : (⟨code, name, c1, c2, c3, exam⟩ : Student) = s := Option.some.inj h
        refine ⟨?_, ?_, ?_, ?_⟩
        · intro hc
          exact splitOnComma_no_comma ln pc hpc (mem_trim (hpce ▸ hc))
        · intro hc
          exact splitOnComma_no_comma ln pn hpn (mem_trim (hpne ▸ hc))
        · rw [← hpce, trim_idem]
        · rw [← hpne, trim_idem]
      · exact absurd h (by simp)
    · exact absurd h (by simp)

theorem comma_mem_serializeStudent (s : Student) : ',' ∈ serializeStudent s := by
  rw [serializeStudent]
  exact List.mem_append.mpr (Or.inr (List.mem_cons_self _ _))

theorem splitOnComma_serializeStudent {s : Student} (hwf : StudentWf s) :
    splitOnComma (serializeStudent s) =
      [s.code, s.name, intToChars s.c1, intToChars s.c2, intToChars s.c3, intToChars s.exam] := by
  rw [serializeStudent,
    splitOnComma_append _ hwf.1,
    splitOnComma_append _ hwf.2.1,
    splitOnComma_append _ (intToChars_no_comma _),
    splitOnComma_append _ (intToChars_no_comma _),
    splitOnComma_append _ (intToChars_no_comma _),
    splitOnComma_of_no_comma (intToChars_no_comma _)]

theorem parseLine_serializeStudent {s : Student} (hwf : StudentWf s) :
    parseLine (serializeStudent s) = some s := by
  have hne : trim (serializeStudent s) ≠ [] :=
    trim_ne_nil_of_mem (comma_mem_serializeStudent s) (by decide)
  have hparts : (splitOnComma (serializeStudent s)).map trim =
      [s.code, s.name, intToChars s.c1, intToChars s.c2, intToChars s.c3, intToChars s.exam] := by
    rw [splitOnComma_serializeStudent hwf]
    simp only [List.map_cons, List.map_nil, hwf.2.2.1, hwf.2.2.2, trim_intToChars]
  rw [parseLine, if_neg hne, hparts]
  simp only [parseInt_intToChars]

theorem filterMap_some_of_all {f : α → Option α} {l : List α}
    (h : ∀ a ∈ l, f a = some a) : l.filterMap f = l := by
  induction l with
  | nil => rfl
  | cons a as ih =>
    rw [List.filterMap_cons, h a (List.mem_cons_self a as),
      ih (fun b hb => h b (List.mem_cons.mpr (Or.inr hb)))]

theorem trim_natToChars (n : Nat) : trim (natToChars n) = natToChars n :=
  trim_eq_self_of_no_ws (fun c hc => isDigit_not_ws (natToChars_all_digits c hc))

/-- Claim C1. Round trip: if `read_students_from_file` succeeds on some file
contents, then writing the returned records with `write_students_to_file`
and loading again returns exactly the same record list, element for
element and in the same order (with the rewritten header equal to the
actual record count). -/
theorem load_save_load_roundtrip (lines : List (List Char))
    (students : List Student) (n : Int)
    (h : read_students_from_file (some lines) = .ok (students, n)) :
    read_students_from_file (some (write_students_to_file students))
      = .ok (students, (students.length : Int)) := by
  obtain ⟨first, rest, rfl⟩ : ∃ first rest, lines = first :: rest := by
    cases lines with
    | nil => rw [read_students_from_file] at h; exact absurd h (by simp)
    | cons a b => exact ⟨a, b, rfl⟩
  rw [read_students_from_file] at h
  split at h
  · exact absurd h (by simp)
  · rename_i m hm
    have hpair := Except.ok.inj h
    have hstudents : rest.filterMap parseLine = students := congrArg Prod.fst hpair
    have hwf : ∀ s ∈ students, StudentWf s := by
      intro s hs
      rw [← hstudents] at hs
      obtain ⟨ln, _, hln⟩ := List.mem_filterMap.mp hs
      exact parseLine_wf hln
    have hfm : (students.map serializeStudent).filterMap parseLine = students := by
      rw [List.filterMap_map]
      exact filterMap_some_of_all
        (fun s hs => parseLine_serializeStudent (hwf s hs))
    rw [write_students_to_file, read_students_from_file]
    have hhead : parseInt (trim (natToChars students.length))
        = some (students.length : Int) := by
      rw [trim_natToChars, parseInt_natToChars]
    rw [hhead]
    simp only [hfm]

/-- Witness for C1 at a concrete two-line file. -/
theorem load_save_load_roundtrip_witness :
    read_students_from_file (some (write_students_to_file
        [⟨"1001".toList, "Ann Smith".toList, 10, 11, 12, 50⟩]))
      = .ok ([⟨"1001".toList, "Ann Smith".toList, 10, 11, 12, 50⟩], 1) :=
  load_save_load_roundtrip ["1".toList, "1001,Ann Smith,10,11,12,50".toList]
    [⟨"1001".toList, "Ann Smith".toList, 10, 11, 12, 50⟩] 1 (by rfl)

/-- Claim C4. `read_students_from_file` fails exactly in three cases, each
with its own distinguishable error kind: absent file (`FileNotFoundError`),
empty file (`ValueError` "File is empty."), and a first line that does not
parse as an integer (`ValueError` on the header); with a parseable header
the call always succeeds. -/
theorem load_error_kinds (first : List Char) (rest : List (List Char)) :
    read_students_from_file none = .error .fileNotFound
    ∧ read_students_from_file (some []) = .error .emptyFile
    ∧ (parseInt (trim first) = none →
        read_students_from_file (some (first :: rest)) = .error .malformedHeader)
    ∧ (∀ n : Int, parseInt (trim first) = some n →
        ∃ out, read_students_from_file (some (first :: rest)) = .ok out)
    ∧ LoadError.fileNotFound ≠ LoadError.emptyFile
    ∧ LoadError.fileNotFound ≠ LoadError.malformedHeader
    ∧ LoadError.emptyFile ≠ LoadError.malformedHeader := by
  refine ⟨rfl, rfl, ?_, ?_, by decide, by decide, by decide⟩
  · intro hn
    rw [read_students_from_file, hn]
  · intro n hn
    rw [read_students_from_file, hn]
    exact ⟨_, rfl⟩

/-- Witness for C4: the header branches evaluated on concrete files. -/
theorem load_error_kinds_witness :
    read_students_from_file (some ["xx".toList]) = .error .malformedHeader
    ∧ ∃ out, read_students_from_file (some ["2".toList]) = .ok out :=
  ⟨(load_error_kinds "xx".toList []).2.2.1 (by rfl),
   (load_error_kinds "2".toList []).2.2.2.1 2 (by rfl)⟩

/-- A data line that fails the `len(parts) < 6` field-count check. -/
def fieldCountDeficient (ln : List Char) : Bool :=
  decide ((splitOnComma ln).length < 6)

/-- A data line with enough fields but whose mark fields do not all parse
as integers (`int(parts[2..5])` raises in the source). -/
def markParseFailure (ln : List Char) : Bool :=
  let parts := (splitOnComma ln).map trim
  decide (6 ≤ parts.length) &&
    ((parseInt (parts.getD 2 [])).isNone || (parseInt (parts.getD 3 [])).isNone ||
     (parseInt (parts.getD 4 [])).isNone || (parseInt (parts.getD 5 [])).isNone)

theorem parseLine_eq_none_of_bad {ln : List Char}
    (hbad : fieldCountDeficient ln = true ∨ markParseFailure ln = true) :
    parseLine ln = none := by
  rw [parseLine]
  split
  · rfl
  · split
    · rename_i code name m1 m2 m3 m4 rest heq
      have hlen : 6 ≤ (splitOnComma ln).length := by
        have := congrArg List.length heq
        rw [List.length_map] at this
        rw [this]
        simp only [List.length_cons]
        omega
      have hnone : (parseInt m1).isNone = true ∨ (parseInt m2).isNone = true
          ∨ (parseInt m3).isNone = true ∨ (parseInt m4).isNone = true := by
        rcases hbad with hb | hb
        · rw [fieldCountDeficient, decide_eq_true_eq] at hb
          omega
        · rw [markParseFailure] at hb
          simp only [Bool.and_eq_true, Bool.or_eq_true] at hb
          have h2 : ((splitOnComma ln).map trim).getD 2 [] = m1 := by rw [heq]; rfl
          have h3 : ((splitOnComma ln).map trim).getD 3 [] = m2 := by rw [heq]; rfl
          have h4 : ((splitOnComma ln).map trim).getD 4 [] = m3 := by rw [heq]; rfl
          have h5 : ((splitOnComma ln).map trim).getD 5 [] = m4 := by rw [heq]; rfl
          rw [h2, h3, h4, h5] at hb
          tauto
      split
      · rename_i c1 c2 c3 exam h1 h2 h3 h4
        rw [h1, h2, h3, h4] at hnone
        simp at hnone
      · rfl
    · rfl

/-- Claim C5. With a valid integer header the load never fails: a data line
that fails the field-count check or whose mark fields fail integer parsing
is silently skipped, and the well-formed lines around it are returned in
file order. -/
theorem lenient_parse_skips_bad_lines (first ln : List Char) (n : Int)
    (pre post : List (List Char))
    (hfirst : parseInt (trim first) = some n)
    (hbad : fieldCountDeficient ln = true ∨ markParseFailure ln = true) :
    read_students_from_file (some (first :: (pre ++ ln :: post)))
      = .ok ((pre ++ post).filterMap parseLine, n)
    ∧ ∀ rest : List (List Char), ∃ out,
        read_students_from_file (some (first :: rest)) = .ok out := by
  constructor
  · rw [read_students_from_file, hfirst]
    have hnone := parseLine_eq_none_of_bad hbad
    simp only [List.filterMap_append, List.filterMap_cons_none hnone]
  · intro rest
    rw [read_students_from_file, hfirst]
    exact ⟨_, rfl⟩

/-- Witness for C5: a malformed mark field (`"x"`) inside a two-record
file is skipped and both surrounding records survive. -/
theorem lenient_parse_skips_bad_lines_witness :
    read_students_from_file (some ["3".toList, "1001,Ann,1,2,3,4".toList,
        "1002,Bob,x,2,3,4".toList, "1003,Cid,1,2,3,4".toList])
      = .ok ((["1001,Ann,1,2,3,4".toList, "1003,Cid,1,2,3,4".toList]).filterMap parseLine, 3)
    ∧ ∀ rest : List (List Char), ∃ out,
        read_students_from_file (some ("3".toList :: rest)) = .ok out :=
  lenient_parse_skips_bad_lines "3".toList "1002,Bob,x,2,3,4".toList 3
    ["1001,Ann,1,2,3,4".toList] ["1003,Cid,1,2,3,4".toList]
    (by rfl) (Or.inr (by rfl))

/-- Claim C2. The grade bands: `A` iff `p ≥ 70`, `B` iff `60 ≤ p < 70`,
`C` iff `50 ≤ p < 60`, `D` iff `40 ≤ p < 50`, `F` iff `p < 40`; lower
bounds inclusive, checked at the boundary values of the claim. -/
theorem compute_grade_bands (p : ℚ) :
    (compute_grade p = .A ↔ 70 ≤ p)
    ∧ (compute_grade p = .B ↔ 60 ≤ p ∧ p < 70)
    ∧ (compute_grade p = .C ↔ 50 ≤ p ∧ p < 60)
    ∧ (compute_grade p = .D ↔ 40 ≤ p ∧ p < 50)
    ∧ (compute_grade p = .F ↔ p < 40)
    ∧ compute_grade (3999 / 100) = .F ∧ compute_grade 40 = .D
    ∧ compute_grade (4999 / 100) = .D ∧ compute_grade 50 = .C
    ∧ compute_grade (5999 / 100) = .C ∧ compute_grade 60 = .B
    ∧ compute_grade (6999 / 100) = .B ∧ compute_grade 70 = .A := by
  refine ⟨?_, ?_, ?_, ?_, ?_, ?_, ?_, ?_, ?_, ?_, ?_, ?_, ?_⟩ <;>
    first
      | (rw [compute_grade]
         split_ifs with h1 h2 h3 h4 <;>
           refine ⟨fun hEq => ?_, fun hP => ?_⟩ <;>
           first
             | rfl
             | exact absurd hEq (by decide)
             | linarith
             | exact ⟨by linarith, by linarith⟩)
      | norm_num [compute_grade]

/-- Claim C3. The overall percentage is exactly
`(c1 + c2 + c3 + exam) / 160 * 100`, with no clamping inside the
function: full marks give 100, all zeros give 0, and out-of-range input
is scaled past 100 rather than clamped. -/
theorem compute_overall_percentage_formula :
    (∀ s : Student, compute_overall_percentage s
        = ((s.c1 + s.c2 + s.c3 + s.exam : Int) : ℚ) / 160 * 100)
    ∧ compute_overall_percentage ⟨[], [], 20, 20, 20, 100⟩ = 100
    ∧ compute_overall_percentage ⟨[], [], 0, 0, 0, 0⟩ = 0
    ∧ compute_overall_percentage ⟨[], [], 20, 20, 20, 200⟩ = 325 / 2 := by
  refine ⟨?_, ?_, ?_, ?_⟩
  · intro s
    rw [compute_overall_percentage, compute_coursework_total]
  all_goals norm_num [compute_overall_percentage, compute_coursework_total]

/-! ## Sorting (C8) -/

/-- Stability of the stable sort, expressed through tie classes: the
subsequence of records at any fixed percentage is unchanged. -/
theorem mergeSort_filter_tie_class (students : List Student)
    (le : Student → Student → Bool)
    (htrans : ∀ (a b c : Student), le a b → le b c → le a c)
    (htotal : ∀ (a b : Student), le a b || le b a)
    (p : Student → Bool)
    (hp : ∀ a b, p a = true → p b = true → le a b = true) :
    (students.mergeSort le).filter p = students.filter p := by
  have hpc : (students.filter p).Pairwise (fun a b => le a b = true) :=
    List.pairwise_of_forall_mem_list (fun a ha b hb =>
      hp a b (List.of_mem_filter ha) (List.of_mem_filter hb))
  have hsub : List.Sublist (students.filter p) (students.mergeSort le) :=
    List.sublist_mergeSort htrans htotal hpc (List.filter_sublist students)
  have hsub2 : List.Sublist ((students.filter p).filter p)
      ((students.mergeSort le).filter p) :=
    hsub.filter p
  rw [List.filter_filter] at hsub2
  have hself : (students.filter (fun a => p a && p a)) = students.filter p := by
    simp
  rw [hself] at hsub2
  have hperm : List.Perm ((students.mergeSort le).filter p) (students.filter p) :=
    (List.mergeSort_perm students le).filter p
  exact (hsub2.eq_of_length hperm.length_eq.symm).symm

/-- Claim C8. `sortByPercentage` with `ascending = true` yields pairwise
non-decreasing percentages, with `ascending = false` pairwise
non-increasing; in both directions the result is a permutation of the
input and the sort is stable: the subsequence of records at any fixed
percentage value is exactly the input's subsequence, so ties keep their
original relative order. -/
theorem sortByPercentage_spec (students : List Student) :
    (sortByPercentage students true).Pairwise
        (fun a b => compute_overall_percentage a ≤ compute_overall_percentage b)
    ∧ (sortByPercentage students false).Pairwise
        (fun a b => compute_overall_percentage b ≤ compute_overall_percentage a)
    ∧ (∀ asc : Bool, List.Perm (sortByPercentage students asc) students)
    ∧ ∀ (asc : Bool) (q : ℚ),
        (sortByPercentage students asc).filter
            (fun s => decide (compute_overall_percentage s = q))
          = students.filter (fun s => decide (compute_overall_percentage s = q)) := by
  have htransA : ∀ (a b c : Student),
      decide (compute_overall_percentage a ≤ compute_overall_percentage b) = true →
      decide (compute_overall_percentage b ≤ compute_overall_percentage c) = true →
      decide (compute_overall_percentage a ≤ compute_overall_percentage c) = true := by
    intro a b c hab hbc
    rw [decide_eq_true_eq] at *
    exact le_trans hab hbc
  have htransD : ∀ (a b c : Student),
      decide (compute_overall_percentage b ≤ compute_overall_percentage a) = true →
      decide (compute_overall_percentage c ≤ compute_overall_percentage b) = true →
      decide (compute_overall_percentage c ≤ compute_overall_percentage a) = true := by
    intro a b c hab hbc
    rw [decide_eq_true_eq] at *
    exact le_trans hbc hab
  have htotalA : ∀ (a b : Student),
      decide (compute_overall_percentage a ≤ compute_overall_percentage b)
        || decide (compute_overall_percentage b ≤ compute_overall_percentage a) := by
    intro a b
    simp only [Bool.or_eq_true, decide_eq_true_eq]
    exact le_total _ _
  have htotalD : ∀ (a b : Student),
      decide (compute_overall_percentage b ≤ compute_overall_percentage a)
        || decide (compute_overall_percentage a ≤ compute_overall_percentage b) := by
    intro a b
    simp only [Bool.or_eq_true, decide_eq_true_eq]
    exact le_total _ _
  refine ⟨?_, ?_, ?_, ?_⟩
  · have := List.sorted_mergeSort htransA htotalA students
    rw [sortByPercentage, if_pos rfl]
    exact this.imp (fun h => decide_eq_true_eq.mp h)
  · have := List.sorted_mergeSort htransD htotalD students
    rw [sortByPercentage, if_neg (by simp)]
    exact this.imp (fun h => decide_eq_true_eq.mp h)
  · intro asc
    cases asc
    · rw [sortByPercentage, if_neg (by simp)]
      exact List.mergeSort_perm students _
    · rw [sortByPercentage, if_pos rfl]
      exact List.mergeSort_perm students _
  · intro asc q
    cases asc
    · rw [sortByPercentage, if_neg (by simp)]
      exact mergeSort_filter_tie_class students _ htransD htotalD _
        (fun a b ha hb => by
          rw [decide_eq_true_eq] at ha hb
          rw [decide_eq_true_eq, ha, hb])
    · rw [sortByPercentage, if_pos rfl]
      exact mergeSort_filter_tie_class students _ htransA htotalA _
        (fun a b ha hb => by
          rw [decide_eq_true_eq] at ha hb
          rw [decide_eq_true_eq, ha, hb])

/-! ## Highest / lowest (C10) -/

/-- The running-best fold shared by Python's `max(…, key=g)` (and, with a
negated key, `min`): the best is replaced only on a strictly better key. -/
def pickBest (g : Student → ℚ) (b : Student) (xs : List Student) : Student :=
  xs.foldl (fun best s => if g best < g s then s else best) b

/-- Lemma: `pickBest` returns the first element attaining the maximal key:
everything before it in `b :: xs` is strictly smaller, everything after is
no larger. -/
theorem pickBest_decomp (g : Student → ℚ) :
    ∀ (xs : List Student) (b : Student),
      ∃ l1 l2, b :: xs = l1 ++ pickBest g b xs :: l2
        ∧ (∀ t ∈ l1, g t < g (pickBest g b xs))
        ∧ ∀ t ∈ l2, g t ≤ g (pickBest g b xs) := by
  intro xs
  induction xs with
  | nil =>
    intro b
    exact ⟨[], [], rfl, fun t ht => absurd ht (List.not_mem_nil t),
      fun t ht => absurd ht (List.not_mem_nil t)⟩
  | cons x xs ih =>
    intro b
    have hstep : pickBest g b (x :: xs) = pickBest g (if g b < g x then x else b) xs := by
      rw [pickBest, pickBest, List.foldl_cons]
    by_cases hbx : g b < g x
    · rw [hstep, if_pos hbx]
      obtain ⟨l1, l2, heq, h1, h2⟩ := ih x
      have hxr : g x ≤ g (pickBest g x xs) := by
        cases l1 with
        | nil =>
          obtain ⟨hx, -⟩ := List.cons.inj heq
          rw [← hx]
        | cons a l1' =>
          obtain ⟨hx, -⟩ := List.cons.inj heq
          exact le_of_lt (hx ▸ h1 a (List.mem_cons_self a l1'))
      refine ⟨b :: l1, l2, ?_, ?_, h2⟩
      · rw [List.cons_append, ← heq]
      · intro t ht
        rcases List.mem_cons.mp ht with rfl | ht
        · exact lt_of_lt_of_le hbx hxr
        · exact h1 t ht
    · rw [hstep, if_neg hbx]
      obtain ⟨l1, l2, heq, h1, h2⟩ := ih b
      cases l1 with
      | nil =>
        obtain ⟨hb, hl2⟩ := List.cons.inj heq
        refine ⟨[], x :: xs, ?_, fun t ht => absurd ht (List.not_mem_nil t), ?_⟩
        · rw [List.nil_append, ← hb]
        · intro t ht
          rcases List.mem_cons.mp ht with rfl | ht
          · rw [← hb]; exact le_of_not_lt hbx
          · exact h2 t (hl2 ▸ ht)
      | cons a l1' =>
        obtain ⟨hb, htail⟩ := List.cons.inj heq
        have htail' : xs = l1' ++ pickBest g b xs :: l2 := htail
        refine ⟨b :: x :: l1', l2, ?_, ?_, h2⟩
        · rw [List.cons_append, List.cons_append, ← htail']
        · intro t ht
          have hbr : g b < g (pickBest g b xs) := hb ▸ h1 a (List.mem_cons_self a l1')
          rcases List.mem_cons.mp ht with rfl | ht
          · exact hbr
          · rcases List.mem_cons.mp ht with rfl | ht
            · exact lt_of_le_of_lt (le_of_not_lt hbx) hbr
            · exact h1 t (List.mem_cons.mpr (Or.inr ht))

theorem foldl_min_eq_pickBest (b : Student) (xs : List Student) :
    xs.foldl (fun best s =>
        if compute_overall_percentage s < compute_overall_percentage best then s else best) b
      = pickBest (fun t => -(compute_overall_percentage t)) b xs := by
  rw [pickBest]
  congr 1
  funext best s
  exact if_congr (Iff.symm neg_lt_neg_iff) rfl rfl

/-- Claim C10. On a nonempty record list, `show_highest` selects the
earliest record attaining the maximal percentage and `show_lowest` the
earliest record attaining the minimal percentage: the record splits the
list so that everything before it compares strictly, everything after it
non-strictly. -/
theorem show_highest_lowest_first_occurrence (students : List Student)
    (h : students ≠ []) :
    (∃ b l1 l2, show_highest students = some b ∧ students = l1 ++ b :: l2
      ∧ (∀ t ∈ l1, compute_overall_percentage t < compute_overall_percentage b)
      ∧ ∀ t ∈ l2, compute_overall_percentage t ≤ compute_overall_percentage b)
    ∧ (∃ w l1 l2, show_lowest students = some w ∧ students = l1 ++ w :: l2
      ∧ (∀ t ∈ l1, compute_overall_percentage w < compute_overall_percentage t)
      ∧ ∀ t ∈ l2, compute_overall_percentage w ≤ compute_overall_percentage t) := by
  obtain ⟨x, xs, rfl⟩ : ∃ x xs, students = x :: xs := by
    cases students with
    | nil => exact absurd rfl h
    | cons a b => exact ⟨a, b, rfl⟩
  constructor
  · obtain ⟨l1, l2, heq, h1, h2⟩ := pickBest_decomp compute_overall_percentage xs x
    exact ⟨pickBest compute_overall_percentage x xs, l1, l2, rfl, heq, h1, h2⟩
  · obtain ⟨l1, l2, heq, h1, h2⟩ :=
      pickBest_decomp (fun t => -(compute_overall_percentage t)) xs x
    refine ⟨pickBest (fun t => -(compute_overall_percentage t)) x xs, l1, l2,
      congrArg some (foldl_min_eq_pickBest x xs), heq, ?_, ?_⟩
    · intro t ht
      exact neg_lt_neg_iff.mp (h1 t ht)
    · intro t ht
      exact neg_le_neg_iff.mp (h2 t ht)

/-- Witness for C10 on a two-record tie: both extremum operations pick the
first record. -/
theorem show_highest_lowest_first_occurrence_witness :
    (∃ b l1 l2, show_highest [⟨"1001".toList, "Ann".toList, 1, 2, 3, 4⟩,
          ⟨"1002".toList, "Bob".toList, 4, 3, 2, 1⟩] = some b
      ∧ [⟨"1001".toList, "Ann".toList, 1, 2, 3, 4⟩,
          ⟨"1002".toList, "Bob".toList, 4, 3, 2, 1⟩] = l1 ++ b :: l2
      ∧ (∀ t ∈ l1, compute_overall_percentage t < compute_overall_percentage b)
      ∧ ∀ t ∈ l2, compute_overall_percentage t ≤ compute_overall_percentage b)
    ∧ (∃ w l1 l2, show_lowest [⟨"1001".toList, "Ann".toList, 1, 2, 3, 4⟩,
          ⟨"1002".toList, "Bob".toList, 4, 3, 2, 1⟩] = some w
      ∧ [⟨"1001".toList, "Ann".toList, 1, 2, 3, 4⟩,
          ⟨"1002".toList, "Bob".toList, 4, 3, 2, 1⟩] = l1 ++ w :: l2
      ∧ (∀ t ∈ l1, compute_overall_percentage w < compute_overall_percentage t)
      ∧ ∀ t ∈ l2, compute_overall_percentage w ≤ compute_overall_percentage t) :=
  show_highest_lowest_first_occurrence
    [⟨"1001".toList, "Ann".toList, 1, 2, 3, 4⟩,
     ⟨"1002".toList, "Bob".toList, 4, 3, 2, 1⟩] (by simp)

/-! ## Delete (C6) -/

/-- On a list with pairwise-distinct codes, the deletion filter
`[s for s in students if s["code"] != chosen["code"]]` removes exactly the
chosen record and keeps everything else in order. -/
theorem filter_ne_code_of_pairwise {students : List Student} {chosen : Student}
    (hdist : students.Pairwise (fun a b => a.code ≠ b.code))
    (hmem : chosen ∈ students) :
    ∃ l1 l2, students = l1 ++ chosen :: l2
      ∧ students.filter (fun s => s.code ≠ chosen.code) = l1 ++ l2 := by
  obtain ⟨l1, l2, rfl⟩ := List.append_of_mem hmem
  refine ⟨l1, l2, rfl, ?_⟩
  rw [List.pairwise_append] at hdist
  obtain ⟨h1, h2, hcross⟩ := hdist
  have hl1 : ∀ a ∈ l1, a.code ≠ chosen.code := fun a ha =>
    hcross a ha chosen (List.mem_cons_self _ _)
  have hl2 : ∀ b ∈ l2, b.code ≠ chosen.code := fun b hb =>
    Ne.symm (List.rel_of_pairwise_cons h2 hb)
  rw [List.filter_append, List.filter_cons]
  rw [if_neg (by simp)]
  rw [List.filter_eq_self.mpr (fun a ha => by simpa using hl1 a ha),
    List.filter_eq_self.mpr (fun b hb => by simpa using hl2 b hb)]

/-- Claim C6, counterexample. As stated the claim fails twice on the code:
with two records sharing the code `1001`, deleting `1001` removes both
records, not exactly one; and with the single record `1001, Bob`, the
query `bob` — which is no record's code — still deletes the record (match
is by substring on code *or name*), instead of reporting no match and
leaving the data alone. -/
theorem delete_student_prompt_counterexample :
    delete_student_prompt [⟨"1001".toList, "Ann".toList, 0, 0, 0, 0⟩,
        ⟨"1001".toList, "Bob".toList, 0, 0, 0, 0⟩] "1001".toList 0
      = .deleted []
    ∧ delete_student_prompt [⟨"1001".toList, "Bob".toList, 0, 0, 0, 0⟩]
        "bob".toList 0 = .deleted [] := by
  exact ⟨rfl, rfl⟩

/-- Claim C6, amended. On a record list whose codes are pairwise distinct:
if no record's code or name contains the (case-insensitive) query, the
prompt reports no match and performs no mutation (the file write is only
reached in the `deleted` branch); and whenever it deletes, it removes
exactly one record — the selected match — and leaves every other record
unchanged in its original relative order. -/
theorem delete_student_prompt_amended (students : List Student)
    (answer : List Char) (pick : Nat)
    (hdist : students.Pairwise (fun a b => a.code ≠ b.code)) :
    (findMatches students answer = [] → answer ≠ [] →
      delete_student_prompt students answer pick = .notFound)
    ∧ ∀ res, delete_student_prompt students answer pick = .deleted res →
        ∃ chosen l1 l2, chosen ∈ findMatches students answer
          ∧ students = l1 ++ chosen :: l2 ∧ res = l1 ++ l2 := by
  constructor
  · intro hm hne
    rw [delete_student_prompt, if_neg hne, hm]
  · intro res hres
    rw [delete_student_prompt] at hres
    split at hres
    · exact DeleteOutcome.noConfusion hres
    · split at hres
      · exact DeleteOutcome.noConfusion hres
      · rename_i m ms hmatch
        split at hres
        · rename_i hp
          have hinj := DeleteOutcome.deleted.inj hres
          have hchosen : (m :: ms).get ⟨pick, hp⟩ ∈ findMatches students answer := by
            rw [hmatch]
            exact List.get_mem _ _ _
          have hmem : (m :: ms).get ⟨pick, hp⟩ ∈ students := by
            rw [findMatches] at hchosen
            exact List.mem_of_mem_filter hchosen
          obtain ⟨l1, l2, hsplit, hfilter⟩ := filter_ne_code_of_pairwise hdist hmem
          exact ⟨(m :: ms).get ⟨pick, hp⟩, l1, l2, hchosen, hsplit, by rw [← hinj, hfilter]⟩
        · exact DeleteOutcome.noConfusion hres

/-- Witness for the amended C6: deleting `1002` from a two-record list
with distinct codes. -/
theorem delete_student_prompt_amended_witness :
    ((findMatches [⟨"1001".toList, "Ann".toList, 0, 0, 0, 0⟩,
        ⟨"1002".toList, "Bob".toList, 0, 0, 0, 0⟩] "1002".toList = [] →
      "1002".toList ≠ [] →
      delete_student_prompt [⟨"1001".toList, "Ann".toList, 0, 0, 0, 0⟩,
        ⟨"1002".toList, "Bob".toList, 0, 0, 0, 0⟩] "1002".toList 0 = .notFound)
    ∧ ∀ res, delete_student_prompt [⟨"1001".toList, "Ann".toList, 0, 0, 0, 0⟩,
        ⟨"1002".toList, "Bob".toList, 0, 0, 0, 0⟩] "1002".toList 0 = .deleted res →
        ∃ chosen l1 l2, chosen ∈ findMatches [⟨"1001".toList, "Ann".toList, 0, 0, 0, 0⟩,
            ⟨"1002".toList, "Bob".toList, 0, 0, 0, 0⟩] "1002".toList
          ∧ [⟨"1001".toList, "Ann".toList, 0, 0, 0, 0⟩,
              ⟨"1002".toList, "Bob".toList, 0, 0, 0, 0⟩] = l1 ++ chosen :: l2
          ∧ res = l1 ++ l2) :=
  delete_student_prompt_amended
    [⟨"1001".toList, "Ann".toList, 0, 0, 0, 0⟩,
     ⟨"1002".toList, "Bob".toList, 0, 0, 0, 0⟩] "1002".toList 0 (by decide)

/-! ## Add then find (C7) -/

/-- Claim C7, counterexample. The search is a case-insensitive *substring*
match on code and name, so after adding the fresh code `1001` next to an
existing record with code `11001`, querying the exact new code returns
two matches, not exactly one. -/
theorem add_then_find_counterexample :
    ("11001".toList ≠ "1001".toList)
    ∧ add_student_prompt [⟨"11001".toList, "X".toList, 5, 5, 5, 50⟩]
        "1001".toList "Y".toList "5".toList "5".toList "5".toList "50".toList
      = .added [⟨"11001".toList, "X".toList, 5, 5, 5, 50⟩,
                ⟨"1001".toList, "Y".toList, 5, 5, 5, 50⟩]
    ∧ (findMatches [⟨"11001".toList, "X".toList, 5, 5, 5, 50⟩,
          ⟨"1001".toList, "Y".toList, 5, 5, 5, 50⟩] "1001".toList).length = 2 := by
  exact ⟨by decide, rfl, rfl⟩

/-- Claim C7, amended. Whenever `add_student_prompt` appends a record,
searching for the exact new code afterwards finds the new record among
the matches, and finds *exactly* it when no pre-existing record's code or
name contains the new code as a case-insensitive substring. -/
theorem add_then_find_amended (students : List Student)
    (codeAnswer nameAnswer m1 m2 m3 m4 : List Char) (students' : List Student)
    (h : add_student_prompt students codeAnswer nameAnswer m1 m2 m3 m4
      = .added students') :
    ∃ s : Student, s.code = trim codeAnswer
      ∧ students' = students ++ [s]
      ∧ s ∈ findMatches students' s.code
      ∧ ((∀ t ∈ students, matchesQuery (toLowerChars s.code) t = false) →
          findMatches students' s.code = [s]) := by
  rw [add_student_prompt] at h
  split at h
  · exact AddOutcome.noConfusion h
  · split at h
    · exact AddOutcome.noConfusion h
    · split at h
      · exact AddOutcome.noConfusion h
      · split at h
        · rename_i c1 c2 c3 exam h1 h2 h3 h4
          split at h
          · exact AddOutcome.noConfusion h
          · obtain rfl := AddOutcome.added.inj h
            refine ⟨⟨trim codeAnswer, trim nameAnswer, c1, c2, c3, exam⟩, rfl, rfl, ?_, ?_⟩
            · rw [findMatches]
              refine List.mem_filter.mpr ⟨List.mem_append.mpr (Or.inr ?_), ?_⟩
              · exact List.mem_cons_self _ _
              · show matchesQuery (toLowerChars (trim (trim codeAnswer))) _ = true
                rw [trim_idem, matchesQuery]
                simp
            · intro hnone
              rw [findMatches]
              show List.filter (matchesQuery (toLowerChars (trim (trim codeAnswer)))) _ = _
              rw [trim_idem, List.filter_append]
              rw [List.filter_eq_nil_iff.mpr (fun t ht => by simp [hnone t ht])]
              rw [List.nil_append, List.filter_cons,
                if_pos (by rw [matchesQuery]; simp), List.filter_nil]
        · exact AddOutcome.noConfusion h

/-- Witness for the amended C7: adding code `1001` to an empty list and
searching for it. -/
theorem add_then_find_amended_witness :
    ∃ s : Student, s.code = trim "1001".toList
      ∧ [⟨"1001".toList, "Ann".toList, 5, 5, 5, 50⟩] = [] ++ [s]
      ∧ s ∈ findMatches [⟨"1001".toList, "Ann".toList, 5, 5, 5, 50⟩] s.code
      ∧ ((∀ t ∈ ([] : List Student), matchesQuery (toLowerChars s.code) t = false) →
          findMatches [⟨"1001".toList, "Ann".toList, 5, 5, 5, 50⟩] s.code = [s]) :=
  add_then_find_amended [] "1001".toList "Ann".toList
    "5".toList "5".toList "5".toList "50".toList
    [⟨"1001".toList, "Ann".toList, 5, 5, 5, 50⟩] (by rfl)

/-! ## Update (C9) -/

/-- Claim C9, code bug. The code-field update's duplicate check compares
the *raw* dialog answer against the stored codes while the *stripped*
answer is what gets stored. Updating record `1001` to `" 1002 "` in the
presence of record `1002` therefore passes the check and stores `1002`,
silently creating a duplicate code — violating both the claim's
"fails with DuplicateKey iff the new code collides" and the data model's
code-uniqueness invariant — whereas the same update with the unpadded
answer `"1002"` is correctly rejected. -/
theorem update_student_code_duplicate_slip :
    update_student_code [⟨"1001".toList, "A".toList, 0, 0, 0, 0⟩,
        ⟨"1002".toList, "B".toList, 0, 0, 0, 0⟩] ⟨0, by decide⟩ " 1002 ".toList
      = .updated [⟨"1002".toList, "A".toList, 0, 0, 0, 0⟩,
          ⟨"1002".toList, "B".toList, 0, 0, 0, 0⟩]
    ∧ ¬ ([⟨"1002".toList, "A".toList, 0, 0, 0, 0⟩,
          ⟨"1002".toList, "B".toList, 0, 0, 0, 0⟩] : List Student).Pairwise
        (fun a b => a.code ≠ b.code)
    ∧ update_student_code [⟨"1001".toList, "A".toList, 0, 0, 0, 0⟩,
        ⟨"1002".toList, "B".toList, 0, 0, 0, 0⟩] ⟨0, by decide⟩ "1002".toList
      = .duplicate := by
  refine ⟨rfl, ?_, rfl⟩
  intro hpair
  exact List.rel_of_pairwise_cons hpair (List.mem_cons_self _ _) rfl

end StudentManager
